import Mathlib

/-
Verification of the trial-assignment engine of the video A/B study app
(src/app.py), as a shallow embedding in Lean 4.

Modelling conventions, stated once here:

* Python's seeded PRNG `rng = random.Random(seed)` is a deterministic
  Mersenne-Twister stream fully determined by the seed.  We abstract it as a
  value `RState`: an infinite stream of naturals (`stream : Nat → Nat`,
  the stream that the given seed determines) together with a cursor `pos`.
  Each primitive (`choice`, `sample2`, `shuffle`, `coin`) consumes stream
  values and advances the cursor, exactly as each call on `rng` consumes
  generator state.  Quantifying over all streams covers all seeds.
* Python dicts keep insertion order; a dict is embedded as an association
  list, with `List.lookup` as indexing and `List.map Prod.fst` as `keys()`.
* The mutable `used_videos` set is threaded explicitly; `set.add` becomes
  `addUsed` (insert-if-absent, so membership agrees with the Python set).
* Code that raises (`ValueError`, `IndexError`) returns `Option`/`Except`.
* The SQLite Rating table is a `List Rating`; the commit of a row under the
  `uq_participant_trial` unique constraint is `insert_rating`, returning
  `none` exactly where SQLAlchemy raises `IntegrityError`.
-/

/-- Abstract state of `random.Random(seed)`: the deterministic value stream
that the seed determines, plus the cursor of how much has been consumed. -/
structure RState where
  stream : Nat → Nat
  pos : Nat

/-- Advance the generator by one consumed value. -/
def RState.next (s : RState) : RState := ⟨s.stream, s.pos + 1⟩

/-- The next raw value of the stream. -/
def RState.val (s : RState) : Nat := s.stream s.pos

/-- Models `rng.choice(l)`: a uniform index into `l` drawn from the stream;
raises (`none`) on an empty sequence, as Python's `choice` does. -/
def RState.choice {α : Type} (s : RState) (l : List α) : Option (α × RState) :=
  match l[s.val % l.length]? with
  | some x => some (x, s.next)
  | none => none

/-- Position of the second element of a two-element sample: a draw `j0` over
the remaining `l.length - 1` positions, skipped past the first position `i`. -/
def sample2Idx (i j0 : Nat) : Nat :=
  if i ≤ j0 then j0 + 1 else j0

/-- Models `rng.sample(l, 2)`: two distinct positions of `l` determined by two
stream draws (first uniform over `l.length`, second over the remaining
`l.length - 1` positions); raises (`none`) when `l` has fewer than 2 items. -/
def RState.sample2 {α : Type} (s : RState) (l : List α) : Option ((α × α) × RState) :=
  if l.length < 2 then none
  else
    match l[s.val % l.length]?,
          l[sample2Idx (s.val % l.length) (s.next.val % (l.length - 1))]? with
    | some a, some b => some ((a, b), s.next.next)
    | _, _ => none

/-- Recursion core of `RState.shuffle`; `fuel` starts at `l.length` and
dominates the length of `l`, so the recursion is structural. -/
def RState.shuffleGo {α : Type} (fuel : Nat) (l : List α) (s : RState) : List α × RState :=
  match fuel with
  | 0 => (l, s)
  | Nat.succ f =>
    if l.length ≤ 1 then (l, s)
    else
      match l[s.val % l.length]? with
      | none => (l, s)
      | some x =>
        match RState.shuffleGo f (l.take (s.val % l.length) ++ l.drop (s.val % l.length + 1)) s.next with
        | (rest, s1) => (x :: rest, s1)

/-- Models `rng.shuffle(l)` (Fisher–Yates): a stream-determined permutation of
`l`, consuming `l.length - 1` draws; each draw selects the next element of the
result among the remaining ones. -/
def RState.shuffle {α : Type} (s : RState) (l : List α) : List α × RState :=
  RState.shuffleGo l.length l s

/-- Models the coin `rng.random() < 0.5`: a fair bit drawn from the stream. -/
def RState.coin (s : RState) : Bool × RState := (s.val % 2 == 1, s.next)

/-- Models `used_videos.add(v)` on the Python set, keeping membership and
cardinality semantics on the list embedding. -/
def addUsed (used_videos : List String) (v : String) : List String :=
  if v ∈ used_videos then used_videos else v :: used_videos

/-- Embedding of `pick_video(rng, candidates, used_videos, allow_repeats)`
(src/app.py lines 247-268): with repeats allowed, a plain `rng.choice`;
otherwise shuffle the candidates, return the first one not yet used and
register it, falling back to a registered `rng.choice` once all are used.
`none` is the `IndexError` Python raises on an empty candidate list. -/
def pick_video (rng : RState) (candidates : List String) (used_videos : List String)
    (allow_repeats : Bool) : Option (String × List String × RState) :=
  match allow_repeats with
  | true =>
    match rng.choice candidates with
    | some (v, s1) => some (v, used_videos, s1)
    | none => none
  | false =>
    match rng.shuffle candidates with
    | (shuffled, s1) =>
      match shuffled.find? (fun v => decide (v ∉ used_videos)) with
      | some v => some (v, addUsed used_videos v, s1)
      | none =>
        match s1.choice candidates with
        | some (v, s2) => some (v, addUsed used_videos v, s2)
        | none => none

/-- The manifest structure: set name → method name → list of video paths,
embedding the Python dict-of-dicts in insertion order. -/
abbrev Catalog := List (String × List (String × List String))

/-- One side of a rendered trial (the dicts built at src/app.py lines 240-241). -/
structure TrialSide where
  label : String
  method : String
  video : String
deriving DecidableEq, Repr

/-- One trial as produced by `generate_trials` (src/app.py lines 237-242). -/
structure Trial where
  trial_index : Nat
  set : String
  left : TrialSide
  right : TrialSide
deriving DecidableEq, Repr

/-- Specification-side instrumentation: one `pick_video` call of a generation
run, recording the candidate list passed in and the clip returned.  The
generator below returns the list of these events alongside the trials so that
properties of the pick sequence can be stated; the events are definitionally
the calls made and carry no extra behavior. -/
structure PickEvent where
  cands : List String
  picked : String
deriving DecidableEq, Repr

/-- Swap which (method, clip) pair sits on which side, keeping the side
labels in place — the effect of the counterbalancing swap
(src/app.py lines 234-235). -/
def swapSides (tr : Trial) : Trial :=
  { tr with
    left := { label := tr.left.label, method := tr.right.method, video := tr.right.video },
    right := { label := tr.right.label, method := tr.left.method, video := tr.left.video } }

/-- The counterbalancing branch `if counterbalance_sides and (rng.random() < 0.5)`
(src/app.py lines 233-235): when enabled, a coin is drawn from the stream
after both clip picks and, on heads, the two (method, clip) pairs trade
sides; when disabled, no stream state is consumed. -/
def counterbalance_step (counterbalance : Bool) (tr : Trial) (s : RState) : Trial × RState :=
  if counterbalance then
    (if (s.coin).1 then swapSides tr else tr, (s.coin).2)
  else (tr, s)

/-- Embedding of one iteration of the `for t in range(n_trials)` loop body of
`generate_trials` (src/app.py lines 205-242): choose a set, two distinct
methods, one clip per method through the shared used-registry, then the
counterbalancing step.  `none` covers the `ValueError` on a set with fewer
than 2 methods and the (manifest-excluded) lookup/pick failures. -/
def make_trial (manifest : Catalog) (set_names : List String) (allow_repeats counterbalance : Bool)
    (t : Nat) (used_videos : List String) (s : RState) :
    Option (Trial × List PickEvent × List String × RState) :=
  match s.choice set_names with
  | none => none
  | some (set_name, s1) =>
    match List.lookup set_name manifest with
    | none => none
    | some methods_dict =>
      if (methods_dict.map Prod.fst).length < 2 then none
      else
        match s1.sample2 (methods_dict.map Prod.fst) with
        | none => none
        | some ((method_left, method_right), s2) =>
          match List.lookup method_left methods_dict with
          | none => none
          | some cands_left =>
            match pick_video s2 cands_left used_videos allow_repeats with
            | none => none
            | some (vid_left, used1, s3) =>
              match List.lookup method_right methods_dict with
              | none => none
              | some cands_right =>
                match pick_video s3 cands_right used1 allow_repeats with
                | none => none
                | some (vid_right, used2, s4) =>
                  some ((counterbalance_step counterbalance
                          { trial_index := t, set := set_name,
                            left := { label := "A", method := method_left, video := vid_left },
                            right := { label := "B", method := method_right, video := vid_right } }
                          s4).1,
                        [⟨cands_left, vid_left⟩, ⟨cands_right, vid_right⟩],
                        used2,
                        (counterbalance_step counterbalance
                          { trial_index := t, set := set_name,
                            left := { label := "A", method := method_left, video := vid_left },
                            right := { label := "B", method := method_right, video := vid_right } }
                          s4).2)

/-- The `for t in range(n_trials)` loop of `generate_trials`, threading the
shared used-videos registry and generator state through successive trials and
concatenating the pick events in call order. -/
def generate_trials_go (manifest : Catalog) (set_names : List String)
    (allow_repeats counterbalance : Bool) :
    Nat → Nat → List String → RState → Option (List Trial × List PickEvent × List String × RState)
  | 0, _, used_videos, s => some ([], [], used_videos, s)
  | Nat.succ k, t, used_videos, s =>
    match make_trial manifest set_names allow_repeats counterbalance t used_videos s with
    | none => none
    | some (tr, evs, used1, s1) =>
      match generate_trials_go manifest set_names allow_repeats counterbalance k (t + 1) used1 s1 with
      | none => none
      | some (trs, evs1, used2, s2) => some (tr :: trs, evs ++ evs1, used2, s2)

/-- Embedding of `generate_trials(manifest, n_trials, seed, ...)`
(src/app.py lines 188-244), instrumented to also return the pick events, the
final used-registry and the final generator state.  The `seed` argument is
represented by the value stream it determines (see the header comment);
`none` is the `ValueError` raised on a manifest with no sets.  Python's
defaults are `allow_video_repeats_within_participant=False`,
`counterbalance_sides=True`. -/
def generate_trials_full (manifest : Catalog) (n_trials : Nat) (stream : Nat → Nat)
    (allow_video_repeats_within_participant counterbalance_sides : Bool) :
    Option (List Trial × List PickEvent × List String × RState) :=
  let set_names := manifest.map Prod.fst
  if set_names.length = 0 then none
  else
    generate_trials_go manifest set_names allow_video_repeats_within_participant
      counterbalance_sides n_trials 0 [] ⟨stream, 0⟩

/-- The trial list returned by `generate_trials`, dropping the specification
instrumentation. -/
def generate_trials (manifest : Catalog) (n_trials : Nat) (stream : Nat → Nat)
    (allow_video_repeats_within_participant counterbalance_sides : Bool) :
    Option (List Trial) :=
  (generate_trials_full manifest n_trials stream allow_video_repeats_within_participant
    counterbalance_sides).map (·.1)

/-- Validity of a catalog, as Python dict semantics plus the checks of
`load_manifest` give it: at least one set, unique set keys, and each set with
at least two methods, unique method keys, each with a non-empty clip list. -/
def CatalogOK (manifest : Catalog) : Prop :=
  manifest ≠ [] ∧
  (manifest.map Prod.fst).Nodup ∧
  ∀ p ∈ manifest, 2 ≤ p.2.length ∧ (p.2.map Prod.fst).Nodup ∧ ∀ q ∈ p.2, q.2 ≠ []

/-- The value of a hexadecimal digit character, `none` for any other
character.  Digits `0-9`, `a-f` and `A-F`, as Python's `int(·, 16)`
accepts them. -/
def hexVal (c : Char) : Option Nat :=
  if 48 ≤ c.toNat ∧ c.toNat ≤ 57 then some (c.toNat - 48)
  else if 97 ≤ c.toNat ∧ c.toNat ≤ 102 then some (c.toNat - 87)
  else if 65 ≤ c.toNat ∧ c.toNat ≤ 70 then some (c.toNat - 55)
  else none

/-- Horner accumulation of hex digits; fails on the first non-digit. -/
def hexAcc (acc : Nat) : List Char → Option Nat
  | [] => some acc
  | c :: cs =>
    match hexVal c with
    | some d => hexAcc (16 * acc + d) cs
    | none => none

/-- Models Python's `int(s, 16)` on the fragment that participant identifiers
exercise: a non-empty string of plain hex digits parses to its base-16 value;
the empty string and any string holding a non-hex-digit character raise
`ValueError` (`none`).  (Python additionally tolerates surrounding whitespace,
a sign, and underscores between digits; such strings never reach this call and
are outside the modelled fragment.) -/
def int_base16 (s : List Char) : Option Nat :=
  match s with
  | [] => none
  | _ :: _ => hexAcc 0 s

/-- Embedding of `participant_seed(participant_id)` (src/app.py lines 271-272):
`int(participant_id[:8], 16)`, i.e. the first (up to) 8 characters parsed as a
base-16 integer. -/
def participant_seed (participant_id : String) : Option Nat :=
  int_base16 (participant_id.data.take 8)

/-- The configured metric keys (the `key` fields of the `METRICS` list,
src/app.py lines 68-89; the display name and description play no role in the
submission logic). -/
def METRICS : List String := ["metric_a", "metric_b", "metric_c", "metric_d"]

/-- One row of the `ratings` table (src/app.py lines 107-143), without the
auto-increment surrogate key. -/
structure Rating where
  participant_id : String
  created_at_utc : String
  trial_index : Nat
  set_name : String
  method_a : String
  method_b : String
  video_a : String
  video_b : String
  left_label : String
  right_label : String
  metric_a_A : Int
  metric_b_A : Int
  metric_c_A : Int
  metric_d_A : Int
  metric_a_B : Int
  metric_b_B : Int
  metric_c_B : Int
  metric_d_B : Int
deriving DecidableEq, Repr

/-- Whether a stored row carries the given (participant_id, trial_index) key
of the `uq_participant_trial` unique constraint (src/app.py lines 110-112). -/
def ratingMatches (participant_id : String) (trial_index : Nat) (r : Rating) : Bool :=
  r.participant_id == participant_id && r.trial_index == trial_index

/-- Models `db.session.add(row); db.session.commit()` against the
`uq_participant_trial` unique constraint: the storage layer refuses
(`IntegrityError`, here `none`) exactly when a row with the same
(participant_id, trial_index) is already stored, and otherwise appends. -/
def insert_rating (store : List Rating) (row : Rating) : Option (List Rating) :=
  if store.any (ratingMatches row.participant_id row.trial_index) then none
  else some (store ++ [row])

/-- Outcome of the submission core.  `badRequest` is `abort(400, msg)`;
`accepted` and `rejectedDuplicate` both render as the same redirect to
`/trial` in the route — the constructor records which control path ran
(successful commit, versus the existing-row check or the caught
`IntegrityError` rollback, which leave the store untouched). -/
inductive SubmitOutcome where
  | badRequest : String → SubmitOutcome
  | accepted : SubmitOutcome
  | rejectedDuplicate : SubmitOutcome
deriving DecidableEq, Repr

/-- The `for m in METRICS` validation loop of the submit route (src/app.py
lines 430-443): for each configured key, both sides must be present in the
form and lie in 0..5, else `abort(400, ...)` (`Except.error`).  Form values
are modelled after Python's `int(raw)` conversion, so as integers; a missing
field is `none`. -/
def parse_scores (form : String → Option Int) : List String →
    Except String (List (String × Int) × List (String × Int))
  | [] => Except.ok ([], [])
  | key :: rest =>
    match form (key ++ "_A"), form (key ++ "_B") with
    | some val_A, some val_B =>
      if 0 ≤ val_A ∧ val_A ≤ 5 ∧ 0 ≤ val_B ∧ val_B ≤ 5 then
        match parse_scores form rest with
        | Except.ok (sA, sB) => Except.ok ((key, val_A) :: sA, (key, val_B) :: sB)
        | Except.error msg => Except.error msg
      else
        Except.error "Scores must be between 0 and 5"
    | _, _ => Except.error ("Missing score for " ++ key)

/-- Score lookup `scores_A[key]` after a successful validation pass; every
configured key is present by construction, so the default is never used. -/
def getScore (scores : List (String × Int)) (key : String) : Int :=
  (scores.lookup key).getD 0

/-- The `Rating(...)` row built by the submit route from the shown trial and
the validated scores (src/app.py lines 450-469), without the wall-clock and
surrogate-key columns handled elsewhere. -/
def mk_rating (participant_id : String) (idx : Nat) (t : Trial) (created_at : String)
    (scores_A scores_B : List (String × Int)) : Rating :=
  { participant_id := participant_id,
    created_at_utc := created_at,
    trial_index := idx,
    set_name := t.set,
    method_a := t.left.method,
    method_b := t.right.method,
    video_a := t.left.video,
    video_b := t.right.video,
    left_label := t.left.label,
    right_label := t.right.label,
    metric_a_A := getScore scores_A "metric_a",
    metric_b_A := getScore scores_A "metric_b",
    metric_c_A := getScore scores_A "metric_c",
    metric_d_A := getScore scores_A "metric_d",
    metric_a_B := getScore scores_B "metric_a",
    metric_b_B := getScore scores_B "metric_b",
    metric_c_B := getScore scores_B "metric_c",
    metric_d_B := getScore scores_B "metric_d" }

/-- Embedding of the core of the `submit` route (src/app.py lines 429-477),
from score validation onward: the enclosing route has already resolved the
participant, the current index `idx` (the count of that participant's stored
rows) and the trial `t` shown at that index, and `created_at` stands for the
wall-clock string `utc_now_str()`.  Validation failure aborts with 400 and
writes nothing; an existing (participant, idx) row short-circuits to the
duplicate outcome; otherwise the row is committed, with an `IntegrityError`
from the unique constraint caught and rolled back as a duplicate. -/
def submit_core (store : List Rating) (participant_id : String) (idx : Nat) (t : Trial)
    (created_at : String) (form : String → Option Int) : SubmitOutcome × List Rating :=
  match parse_scores form METRICS with
  | Except.error msg => (SubmitOutcome.badRequest msg, store)
  | Except.ok (scores_A, scores_B) =>
    if store.any (ratingMatches participant_id idx) then
      (SubmitOutcome.rejectedDuplicate, store)
    else
      match insert_rating store (mk_rating participant_id idx t created_at scores_A scores_B) with
      | none => (SubmitOutcome.rejectedDuplicate, store)
      | some store1 => (SubmitOutcome.accepted, store1)

/-- The dedup-discipline of a pick-event sequence relative to a list `base` of
clips picked before the sequence started: each event whose candidate pool has
at least `n` clips repeats an already-picked clip only if its whole candidate
pool was already picked, and later events see the earlier picks accumulated. -/
def NoPrematureRepeat (n : Nat) : List String → List PickEvent → Prop
  | _, [] => True
  | base, e :: rest =>
    (n ≤ e.cands.length → e.picked ∈ base → ∀ c ∈ e.cands, c ∈ base) ∧
    NoPrematureRepeat n (e.picked :: base) rest

/-- The validity facts claimed for each generated trial: fixed side labels,
a set drawn from the catalog's keys, and two distinct methods of that set,
each side showing a clip of its own method's list. -/
def TrialOK (manifest : Catalog) (tr : Trial) : Prop :=
  tr.left.label = "A" ∧ tr.right.label = "B" ∧
  tr.set ∈ manifest.map Prod.fst ∧
  ∃ methods_dict, List.lookup tr.set manifest = some methods_dict ∧
    tr.left.method ≠ tr.right.method ∧
    tr.left.method ∈ methods_dict.map Prod.fst ∧
    tr.right.method ∈ methods_dict.map Prod.fst ∧
    (∃ cl, List.lookup tr.left.method methods_dict = some cl ∧ tr.left.video ∈ cl) ∧
    (∃ cr, List.lookup tr.right.method methods_dict = some cr ∧ tr.right.video ∈ cr)

/-- The example catalog of the specification:
`{"S1": {"m1": ["c1","c2"], "m2": ["c3"]}}`. -/
def exampleCatalog : Catalog :=
  [("S1", [("m1", ["c1", "c2"]), ("m2", ["c3"])])]

/-- A catalog whose two methods share their single clip, exhausting the
method pools after one pick. -/
def sharedClipCatalog : Catalog :=
  [("S", [("m1", ["x"]), ("m2", ["x"])])]

/-- A concrete all-zero random stream, standing for one particular seed. -/
def constStream : Nat → Nat := fun _ => 0

/-- The same stream written differently, pointwise equal to `constStream`. -/
def constStream' : Nat → Nat := fun n => n * 0

/-- A concrete trial, for exercising the submission path. -/
def exampleTrial : Trial :=
  { trial_index := 0, set := "S1",
    left := { label := "A", method := "m1", video := "c1" },
    right := { label := "B", method := "m2", video := "c3" } }

/-- A form answering 3 to every field. -/
def formAll3 : String → Option Int := fun _ => some 3

/-- A form with one out-of-range value (6 against the bound [0, 5]). -/
def formOutOfRange : String → Option Int :=
  fun k => if k = "metric_a_A" then some 6 else some 3

/-- Membership in the used-registry after an `add`. -/
theorem mem_addUsed {used : List String} {v x : String} :
    x ∈ addUsed used v ↔ x = v ∨ x ∈ used := by
  by_cases h : v ∈ used
  · simp only [addUsed, if_pos h]
    constructor
    · exact Or.inr
    · rintro (rfl | hx)
      · exact h
      · exact hx
  · simp [addUsed, if_neg h]

/-- A successful `choice` returns a member of the list and advances one draw. -/
theorem choice_eq_some {α : Type} {s : RState} {l : List α} {v : α} {s1 : RState}
    (h : s.choice l = some (v, s1)) : v ∈ l ∧ s1 = s.next := by
  unfold RState.choice at h
  cases hg : l[s.val % l.length]? with
  | none => rw [hg] at h; exact absurd h (by simp)
  | some x =>
    rw [hg] at h
    simp only [Option.some.injEq, Prod.mk.injEq] at h
    obtain ⟨rfl, rfl⟩ := h
    obtain ⟨hlt, rfl⟩ := List.getElem?_eq_some.mp hg
    exact ⟨List.getElem_mem hlt, rfl⟩

/-- On a non-empty list, `choice` succeeds. -/
theorem choice_total {α : Type} (s : RState) {l : List α} (h : l ≠ []) :
    ∃ v, s.choice l = some (v, s.next) ∧ v ∈ l := by
  have hlen : 0 < l.length := List.length_pos.mpr h
  have hlt : s.val % l.length < l.length := Nat.mod_lt _ hlen
  refine ⟨l[s.val % l.length], ?_, List.getElem_mem hlt⟩
  unfold RState.choice
  rw [List.getElem?_eq_getElem hlt]

/-- A successful two-element sample from a duplicate-free list returns two
distinct members and advances two draws. -/
theorem sample2_eq_some {α : Type} {s : RState} {l : List α} {a b : α} {s2 : RState}
    (hnd : l.Nodup) (h : s.sample2 l = some ((a, b), s2)) :
    a ∈ l ∧ b ∈ l ∧ a ≠ b ∧ s2 = s.next.next := by
  unfold RState.sample2 at h
  split at h
  · exact absurd h (by simp)
  · rename_i hlen
    split at h
    · rename_i a0 b0 ha hb
      simp only [Option.some.injEq, Prod.mk.injEq] at h
      obtain ⟨⟨rfl, rfl⟩, rfl⟩ := h
      obtain ⟨hia, rfl⟩ := List.getElem?_eq_some.mp ha
      obtain ⟨hib, rfl⟩ := List.getElem?_eq_some.mp hb
      refine ⟨List.getElem_mem hia, List.getElem_mem hib, ?_, rfl⟩
      intro he
      have hij := hnd.getElem_inj_iff.mp he
      unfold sample2Idx at hij
      split at hij <;> omega
    · exact absurd h (by simp)

/-- On a list of length at least two, `sample2` succeeds. -/
theorem sample2_total {α : Type} (s : RState) {l : List α} (h : 2 ≤ l.length) :
    ∃ ab, s.sample2 l = some (ab, s.next.next) := by
  have hi : s.val % l.length < l.length := Nat.mod_lt _ (by omega)
  have hj : sample2Idx (s.val % l.length) (s.next.val % (l.length - 1)) < l.length := by
    have h2 : s.next.val % (l.length - 1) < l.length - 1 := Nat.mod_lt _ (by omega)
    unfold sample2Idx
    split <;> omega
  refine ⟨(l[s.val % l.length], l[sample2Idx (s.val % l.length) (s.next.val % (l.length - 1))]), ?_⟩
  unfold RState.sample2
  rw [if_neg (by omega), List.getElem?_eq_getElem hi, List.getElem?_eq_getElem hj]

/-- Extracting the element at a valid position and re-consing it in front is a
permutation of the original list. -/
theorem cons_extract_perm {α : Type} {l : List α} {i : Nat} {x : α}
    (h : l[i]? = some x) : (x :: (l.take i ++ l.drop (i + 1))).Perm l := by
  induction l generalizing i with
  | nil => simp at h
  | cons a t ih =>
    cases i with
    | zero =>
      simp only [List.getElem?_cons_zero, Option.some.injEq] at h
      subst h
      simp
    | succ k =>
      simp only [List.getElem?_cons_succ] at h
      have hp := ih h
      simp only [List.take_succ_cons, List.drop_succ_cons]
      have h1 : (x :: a :: (List.take k t ++ List.drop (k + 1) t)).Perm
          (a :: x :: (List.take k t ++ List.drop (k + 1) t)) := List.Perm.swap a x _
      have h2 : (a :: x :: (List.take k t ++ List.drop (k + 1) t)).Perm (a :: t) :=
        List.Perm.cons a hp
      exact List.Perm.trans h1 h2

/-- The shuffled list is a permutation of the input. -/
theorem shuffleGo_perm {α : Type} (fuel : Nat) (l : List α) (s : RState) :
    (RState.shuffleGo fuel l s).1.Perm l := by
  induction fuel generalizing l s with
  | zero => simp [RState.shuffleGo]
  | succ f ih =>
    unfold RState.shuffleGo
    split
    · exact List.Perm.refl l
    · cases hg : l[s.val % l.length]? with
      | none => simp [hg]
      | some x =>
        simp only [hg]
        have hp := ih (l.take (s.val % l.length) ++ l.drop (s.val % l.length + 1)) s.next
        cases hr : RState.shuffleGo f (l.take (s.val % l.length) ++ l.drop (s.val % l.length + 1)) s.next with
        | mk rest s1 =>
          rw [hr] at hp
          simp only []
          exact List.Perm.trans (List.Perm.cons x hp) (cons_extract_perm hg)

/-- The shuffle produced by `RState.shuffle` is a permutation of its input. -/
theorem shuffle_perm {α : Type} (s : RState) (l : List α) :
    (s.shuffle l).1.Perm l :=
  shuffleGo_perm l.length l s

/-- A successful dedup-aware pick returns a candidate and registers it. -/
theorem pick_video_false_inv {rng : RState} {cands used : List String} {v : String}
    {u1 : List String} {s1 : RState}
    (h : pick_video rng cands used false = some (v, u1, s1)) :
    v ∈ cands ∧ u1 = addUsed used v := by
  simp only [pick_video] at h
  cases hsh : rng.shuffle cands with
  | mk shuffled st =>
    rw [hsh] at h
    have hperm : shuffled.Perm cands := by
      have := shuffle_perm rng cands
      rw [hsh] at this
      exact this
    cases hf : shuffled.find? (fun v => decide (v ∉ used)) with
    | some w =>
      rw [hf] at h
      simp only [Option.some.injEq, Prod.mk.injEq] at h
      obtain ⟨rfl, rfl, rfl⟩ := h
      exact ⟨hperm.mem_iff.mp (List.mem_of_find?_eq_some hf), rfl⟩
    | none =>
      rw [hf] at h
      cases hc : st.choice cands with
      | none => rw [hc] at h; exact absurd h (by simp)
      | some p =>
        rw [hc] at h
        cases p with
        | mk w s2 =>
          simp only [Option.some.injEq, Prod.mk.injEq] at h
          obtain ⟨rfl, rfl, rfl⟩ := h
          exact ⟨(choice_eq_some hc).1, rfl⟩

/-- A successful repeats-allowed pick returns a candidate and leaves the
used-registry untouched. -/
theorem pick_video_true_inv {rng : RState} {cands used : List String} {v : String}
    {u1 : List String} {s1 : RState}
    (h : pick_video rng cands used true = some (v, u1, s1)) :
    v ∈ cands ∧ u1 = used := by
  simp only [pick_video] at h
  cases hc : rng.choice cands with
  | none => rw [hc] at h; exact absurd h (by simp)
  | some p =>
    rw [hc] at h
    cases p with
    | mk w s2 =>
      simp only [Option.some.injEq, Prod.mk.injEq] at h
      obtain ⟨rfl, rfl, rfl⟩ := h
      exact ⟨(choice_eq_some hc).1, rfl⟩

/-- On a non-empty candidate list, `pick_video` succeeds. -/
theorem pick_video_total (rng : RState) {cands : List String} (used : List String)
    (allow_repeats : Bool) (h : cands ≠ []) :
    ∃ v u1 s1, pick_video rng cands used allow_repeats = some (v, u1, s1) := by
  cases allow_repeats with
  | true =>
    obtain ⟨v, hc, _⟩ := choice_total rng h
    exact ⟨v, used, rng.next, by simp only [pick_video]; rw [hc]⟩
  | false =>
    simp only [pick_video]
    cases hsh : rng.shuffle cands with
    | mk shuffled st =>
      cases hf : shuffled.find? (fun v => decide (v ∉ used)) with
      | some w => exact ⟨w, addUsed used w, st, by simp [hf]⟩
      | none =>
        obtain ⟨v, hc, _⟩ := choice_total st h
        exact ⟨v, addUsed used v, st.next, by simp [hf, hc]⟩

/-- The dedup preference: a dedup-aware pick returns an already-used clip only
when every candidate is already used. -/
theorem pick_video_repeat_exhausted {rng : RState} {cands used : List String} {v : String}
    {u1 : List String} {s1 : RState}
    (h : pick_video rng cands used false = some (v, u1, s1)) (hv : v ∈ used) :
    ∀ c ∈ cands, c ∈ used := by
  simp only [pick_video] at h
  cases hsh : rng.shuffle cands with
  | mk shuffled st =>
    rw [hsh] at h
    have hperm : shuffled.Perm cands := by
      have := shuffle_perm rng cands
      rw [hsh] at this
      exact this
    cases hf : shuffled.find? (fun v => decide (v ∉ used)) with
    | some w =>
      rw [hf] at h
      simp only [Option.some.injEq, Prod.mk.injEq] at h
      obtain ⟨rfl, rfl, rfl⟩ := h
      have := List.find?_some hf
      simp only [decide_eq_true_eq] at this
      exact absurd hv this
    | none =>
      intro c hc
      have hall := List.find?_eq_none.mp hf c (hperm.mem_iff.mpr hc)
      simpa using hall

/-- A successful two-element sample returns members and advances two draws
(no duplicate-freeness needed). -/
theorem sample2_mem {α : Type} {s : RState} {l : List α} {a b : α} {s2 : RState}
    (h : s.sample2 l = some ((a, b), s2)) : a ∈ l ∧ b ∈ l ∧ s2 = s.next.next := by
  unfold RState.sample2 at h
  split at h
  · exact absurd h (by simp)
  · split at h
    · rename_i a0 b0 ha hb
      simp only [Option.some.injEq, Prod.mk.injEq] at h
      obtain ⟨⟨rfl, rfl⟩, rfl⟩ := h
      obtain ⟨hia, rfl⟩ := List.getElem?_eq_some.mp ha
      obtain ⟨hib, rfl⟩ := List.getElem?_eq_some.mp hb
      exact ⟨List.getElem_mem hia, List.getElem_mem hib, rfl⟩
    · exact absurd h (by simp)

/-- A key present among the mapped-out keys of an association list has a
successful lookup. -/
theorem lookup_some_of_mem_keys {β : Type} {l : List (String × β)} {a : String}
    (h : a ∈ l.map Prod.fst) : ∃ b, List.lookup a l = some b := by
  induction l with
  | nil => simp at h
  | cons p rest ih =>
    obtain ⟨k, v⟩ := p
    by_cases he : a = k
    · exact ⟨v, by simp [List.lookup, he]⟩
    · simp only [List.map_cons, List.mem_cons] at h
      cases h with
      | inl hh => exact absurd hh he
      | inr hh =>
        obtain ⟨b, hb⟩ := ih hh
        refine ⟨b, ?_⟩
        simpa [List.lookup, beq_eq_false_iff_ne.mpr he] using hb

/-- A successful lookup exhibits a stored binding. -/
theorem lookup_mem {β : Type} {l : List (String × β)} {a : String} {b : β}
    (h : List.lookup a l = some b) : (a, b) ∈ l := by
  induction l with
  | nil => simp [List.lookup] at h
  | cons p rest ih =>
    obtain ⟨k, v⟩ := p
    by_cases he : a = k
    · subst he
      simp only [List.lookup, beq_self_eq_true] at h
      simp only [Option.some.injEq] at h
      subst h
      exact List.mem_cons_self _ _
    · simp only [List.lookup, beq_eq_false_iff_ne.mpr he] at h
      exact List.mem_cons_of_mem _ (ih h)

/-- Full inversion of a successful `make_trial` call into the chain of draws,
lookups and picks that the loop body performs, in order. -/
theorem make_trial_inv {manifest : Catalog} {set_names : List String}
    {ar cb : Bool} {t : Nat} {used : List String} {s : RState}
    {tr : Trial} {evs : List PickEvent} {used2 : List String} {s5 : RState}
    (h : make_trial manifest set_names ar cb t used s = some (tr, evs, used2, s5)) :
    ∃ set_name s1 methods_dict method_left method_right s2 cands_left vid_left used1 s3
      cands_right vid_right s4,
      s.choice set_names = some (set_name, s1) ∧
      List.lookup set_name manifest = some methods_dict ∧
      2 ≤ (methods_dict.map Prod.fst).length ∧
      s1.sample2 (methods_dict.map Prod.fst) = some ((method_left, method_right), s2) ∧
      List.lookup method_left methods_dict = some cands_left ∧
      pick_video s2 cands_left used ar = some (vid_left, used1, s3) ∧
      List.lookup method_right methods_dict = some cands_right ∧
      pick_video s3 cands_right used1 ar = some (vid_right, used2, s4) ∧
      evs = [⟨cands_left, vid_left⟩, ⟨cands_right, vid_right⟩] ∧
      (tr, s5) = counterbalance_step cb
        { trial_index := t, set := set_name,
          left := { label := "A", method := method_left, video := vid_left },
          right := { label := "B", method := method_right, video := vid_right } } s4 := by
  unfold make_trial at h
  split at h
  · exact absurd h (by simp)
  · rename_i set_name s1 h1
    split at h
    · exact absurd h (by simp)
    · rename_i methods_dict h2
      split at h
      · exact absurd h (by simp)
      · rename_i hlen
        split at h
        · exact absurd h (by simp)
        · rename_i method_left method_right s2 h3
          split at h
          · exact absurd h (by simp)
          · rename_i cands_left h4
            split at h
            · exact absurd h (by simp)
            · rename_i vid_left used1 s3 h5
              split at h
              · exact absurd h (by simp)
              · rename_i cands_right h6
                split at h
                · exact absurd h (by simp)
                · rename_i vid_right used2x s4 h7
                  simp only [Option.some.injEq, Prod.mk.injEq] at h
                  obtain ⟨rfl, rfl, rfl, rfl⟩ := h
                  exact ⟨set_name, s1, methods_dict, method_left, method_right, s2,
                    cands_left, vid_left, used1, s3, cands_right, vid_right, s4,
                    h1, h2, by omega, h3, h4, h5, h6, h7, rfl, rfl⟩

/-- The counterbalancing step either leaves the trial alone or swaps its
sides, and never touches the generator except for the one coin draw. -/
theorem counterbalance_step_fst (cb : Bool) (tr : Trial) (s : RState) :
    (counterbalance_step cb tr s).1 = tr ∨ (counterbalance_step cb tr s).1 = swapSides tr := by
  unfold counterbalance_step
  split
  · rcases Bool.eq_false_or_eq_true (s.coin).1 with hc | hc <;> simp [hc]
  · simp

/-- Any successful pick returns one of the candidates, in both repeat modes. -/
theorem pick_video_mem {rng : RState} {cands used : List String} {ar : Bool} {v : String}
    {u1 : List String} {s1 : RState}
    (h : pick_video rng cands used ar = some (v, u1, s1)) : v ∈ cands := by
  cases ar with
  | false => exact (pick_video_false_inv h).1
  | true => exact (pick_video_true_inv h).1

/-- A produced trial carries the loop index it was built at, and the fixed
side labels. -/
theorem make_trial_shape {manifest : Catalog} {set_names : List String}
    {ar cb : Bool} {t : Nat} {used : List String} {s : RState}
    {tr : Trial} {evs : List PickEvent} {used2 : List String} {s5 : RState}
    (h : make_trial manifest set_names ar cb t used s = some (tr, evs, used2, s5)) :
    tr.trial_index = t ∧ tr.left.label = "A" ∧ tr.right.label = "B" := by
  obtain ⟨set_name, s1, methods_dict, mL, mR, s2, cL, vL, u1, s3, cR, vR, s4,
    _, _, _, _, _, _, _, _, _, htr⟩ := make_trial_inv h
  have h1 : tr = (counterbalance_step cb
      { trial_index := t, set := set_name,
        left := { label := "A", method := mL, video := vL },
        right := { label := "B", method := mR, video := vR } } s4).1 :=
    congrArg Prod.fst htr
  rcases counterbalance_step_fst cb
      { trial_index := t, set := set_name,
        left := { label := "A", method := mL, video := vL },
        right := { label := "B", method := mR, video := vR } } s4 with he | he <;>
    rw [h1, he] <;> simp [swapSides]

/-- A produced trial satisfies the per-trial validity facts, provided each
set's method keys are duplicate-free (Python dict semantics) and the set
names offered to the draw are the catalog's keys. -/
theorem make_trial_ok {manifest : Catalog} {ar cb : Bool} {t : Nat}
    {used : List String} {s : RState}
    {tr : Trial} {evs : List PickEvent} {used2 : List String} {s5 : RState}
    (hnd : ∀ p ∈ manifest, (p.2.map Prod.fst).Nodup)
    (h : make_trial manifest (manifest.map Prod.fst) ar cb t used s = some (tr, evs, used2, s5)) :
    TrialOK manifest tr := by
  obtain ⟨set_name, s1, methods_dict, mL, mR, s2, cL, vL, u1, s3, cR, vR, s4,
    h1, h2, hlen, h3, h4, h5, h6, h7, _, htr⟩ := make_trial_inv h
  have hsetmem : set_name ∈ manifest.map Prod.fst := (choice_eq_some h1).1
  have hndm : (methods_dict.map Prod.fst).Nodup := hnd _ (lookup_mem h2)
  obtain ⟨hmLmem, hmRmem, hmne, _⟩ := sample2_eq_some hndm h3
  have hvL : vL ∈ cL := pick_video_mem h5
  have hvR : vR ∈ cR := pick_video_mem h7
  have h1tr : tr = (counterbalance_step cb
      { trial_index := t, set := set_name,
        left := { label := "A", method := mL, video := vL },
        right := { label := "B", method := mR, video := vR } } s4).1 :=
    congrArg Prod.fst htr
  rcases counterbalance_step_fst cb
      { trial_index := t, set := set_name,
        left := { label := "A", method := mL, video := vL },
        right := { label := "B", method := mR, video := vR } } s4 with he | he
  · rw [h1tr, he]
    exact ⟨rfl, rfl, hsetmem, methods_dict, h2, hmne, hmLmem, hmRmem, ⟨cL, h4, hvL⟩, ⟨cR, h6, hvR⟩⟩
  · rw [h1tr, he]
    refine ⟨rfl, rfl, hsetmem, methods_dict, h2, ?_, hmRmem, hmLmem, ⟨cR, h6, hvR⟩, ⟨cL, h4, hvL⟩⟩
    exact fun hcontr => hmne hcontr.symm

/-- The generation loop produces exactly `k` trials, consecutively indexed
from its starting index. -/
theorem generate_trials_go_len {manifest : Catalog} {set_names : List String} {ar cb : Bool} :
    ∀ {k t : Nat} {used : List String} {s : RState} {trs : List Trial} {evs : List PickEvent}
      {usedF : List String} {sF : RState},
      generate_trials_go manifest set_names ar cb k t used s = some (trs, evs, usedF, sF) →
      trs.length = k ∧ ∀ i (hi : i < trs.length), trs[i].trial_index = t + i := by
  intro k
  induction k with
  | zero =>
    intro t used s trs evs usedF sF h
    simp only [generate_trials_go, Option.some.injEq, Prod.mk.injEq] at h
    obtain ⟨rfl, _, _, _⟩ := h
    exact ⟨rfl, fun i hi => absurd hi (by simp)⟩
  | succ k ih =>
    intro t used s trs evs usedF sF h
    simp only [generate_trials_go] at h
    split at h
    · exact absurd h (by simp)
    · rename_i tr evs0 used1 s1 hmk
      split at h
      · exact absurd h (by simp)
      · rename_i trs1 evs1 used2 s2 hgo
        simp only [Option.some.injEq, Prod.mk.injEq] at h
        obtain ⟨rfl, _, rfl, rfl⟩ := h
        obtain ⟨hlen, hidx⟩ := ih hgo
        refine ⟨by simp [hlen], fun i hi => ?_⟩
        cases i with
        | zero =>
          simpa using (make_trial_shape hmk).1
        | succ j =>
          have hj : j < trs1.length := by simpa using hi
          have := hidx j hj
          simpa [this] using by omega

/-- Every trial of the generation loop satisfies the per-trial validity
facts, under duplicate-free method keys per set. -/
theorem generate_trials_go_ok {manifest : Catalog} {ar cb : Bool}
    (hnd : ∀ p ∈ manifest, (p.2.map Prod.fst).Nodup) :
    ∀ {k t : Nat} {used : List String} {s : RState} {trs : List Trial} {evs : List PickEvent}
      {usedF : List String} {sF : RState},
      generate_trials_go manifest (manifest.map Prod.fst) ar cb k t used s
        = some (trs, evs, usedF, sF) →
      ∀ tr ∈ trs, TrialOK manifest tr := by
  intro k
  induction k with
  | zero =>
    intro t used s trs evs usedF sF h
    simp only [generate_trials_go, Option.some.injEq, Prod.mk.injEq] at h
    obtain ⟨rfl, _, _, _⟩ := h
    simp
  | succ k ih =>
    intro t used s trs evs usedF sF h
    simp only [generate_trials_go] at h
    split at h
    · exact absurd h (by simp)
    · rename_i tr evs0 used1 s1 hmk
      split at h
      · exact absurd h (by simp)
      · rename_i trs1 evs1 used2 s2 hgo
        simp only [Option.some.injEq, Prod.mk.injEq] at h
        obtain ⟨rfl, _, rfl, rfl⟩ := h
        intro x hx
        cases hx with
        | head => exact make_trial_ok hnd hmk
        | tail _ hx => exact ih hgo x hx

/-- On a well-formed catalog slice, the loop body always succeeds. -/
theorem make_trial_total (manifest : Catalog) {set_names : List String}
    (ar cb : Bool) (t : Nat) (used : List String) (s : RState)
    (hsn : set_names ≠ [])
    (hset : ∀ nm ∈ set_names, ∃ md, List.lookup nm manifest = some md ∧
      2 ≤ md.length ∧ ∀ q ∈ md, q.2 ≠ []) :
    ∃ out, make_trial manifest set_names ar cb t used s = some out := by
  obtain ⟨set_name, hc, hmem⟩ := choice_total s hsn
  obtain ⟨md, hlk, hlen2, hne⟩ := hset set_name hmem
  have hlen2m : 2 ≤ (md.map Prod.fst).length := by simpa using hlen2
  obtain ⟨ab, hsamp⟩ := sample2_total s.next hlen2m
  obtain ⟨mL, mR⟩ := ab
  obtain ⟨hmL, hmR, _⟩ := sample2_mem hsamp
  obtain ⟨cL, hlkL⟩ := lookup_some_of_mem_keys hmL
  obtain ⟨cR, hlkR⟩ := lookup_some_of_mem_keys hmR
  have hcLne : cL ≠ [] := hne _ (lookup_mem hlkL)
  have hcRne : cR ≠ [] := hne _ (lookup_mem hlkR)
  obtain ⟨vL, u1, s3, hpickL⟩ := pick_video_total s.next.next.next used ar hcLne
  obtain ⟨vR, u2, s4, hpickR⟩ := pick_video_total s3 u1 ar hcRne
  have hs : (make_trial manifest set_names ar cb t used s).isSome := by
    simp only [make_trial, hc, hlk]
    rw [if_neg (by omega)]
    simp only [hsamp, hlkL, hpickL, hlkR, hpickR]
    rfl
  exact Option.isSome_iff_exists.mp hs

/-- On a well-formed catalog slice, the generation loop always succeeds. -/
theorem generate_trials_go_total (manifest : Catalog) {set_names : List String}
    (ar cb : Bool)
    (hsn : set_names ≠ [])
    (hset : ∀ nm ∈ set_names, ∃ md, List.lookup nm manifest = some md ∧
      2 ≤ md.length ∧ ∀ q ∈ md, q.2 ≠ []) :
    ∀ (k t : Nat) (used : List String) (s : RState),
      ∃ out, generate_trials_go manifest set_names ar cb k t used s = some out := by
  intro k
  induction k with
  | zero => intro t used s; exact ⟨_, rfl⟩
  | succ k ih =>
    intro t used s
    obtain ⟨out1, h1⟩ := make_trial_total manifest ar cb t used s hsn hset
    obtain ⟨tr, evs0, used1, s1⟩ := out1
    obtain ⟨out2, h2⟩ := ih (t + 1) used1 s1
    obtain ⟨trs1, evs1, used2, s2⟩ := out2
    have hs : (generate_trials_go manifest set_names ar cb (k + 1) t used s).isSome := by
      simp only [generate_trials_go, h1, h2]
      rfl
    exact Option.isSome_iff_exists.mp hs

/-- Renaming the base by a membership-equivalent list preserves the dedup
discipline of an event sequence. -/
theorem NoPrematureRepeat_congr (n : Nat) :
    ∀ {evs : List PickEvent} {b1 b2 : List String},
      (∀ x, x ∈ b1 ↔ x ∈ b2) →
      NoPrematureRepeat n b1 evs → NoPrematureRepeat n b2 evs := by
  intro evs
  induction evs with
  | nil => intro b1 b2 _ _; trivial
  | cons e rest ih =>
    intro b1 b2 heqv h
    obtain ⟨h1, h2⟩ := h
    refine ⟨?_, ?_⟩
    · intro hn hp c hc
      exact (heqv c).mp (h1 hn ((heqv e.picked).mpr hp) c hc)
    · refine ih ?_ h2
      intro x
      simp only [List.mem_cons]
      exact or_congr Iff.rfl (heqv x)

/-- The registry after a dedup-aware pick is membership-equivalent to pushing
the picked clip on the registry before it. -/
theorem pick_video_false_used {rng : RState} {cands used : List String} {v : String}
    {u1 : List String} {s1 : RState}
    (h : pick_video rng cands used false = some (v, u1, s1)) :
    ∀ x, x ∈ u1 ↔ x ∈ v :: used := by
  intro x
  rw [(pick_video_false_inv h).2]
  simp only [List.mem_cons]
  exact mem_addUsed

/-- Through the whole generation loop with dedup enabled, every pick event
obeys the dedup discipline relative to the clips picked before it. -/
theorem generate_trials_go_npr {manifest : Catalog} {set_names : List String} {cb : Bool}
    (n : Nat) :
    ∀ {k t : Nat} {used : List String} {s : RState} {trs : List Trial} {evs : List PickEvent}
      {usedF : List String} {sF : RState} {base : List String},
      (∀ x, x ∈ used ↔ x ∈ base) →
      generate_trials_go manifest set_names false cb k t used s = some (trs, evs, usedF, sF) →
      NoPrematureRepeat n base evs := by
  intro k
  induction k with
  | zero =>
    intro t used s trs evs usedF sF base _ h
    simp only [generate_trials_go, Option.some.injEq, Prod.mk.injEq] at h
    obtain ⟨_, rfl, _, _⟩ := h
    trivial
  | succ k ih =>
    intro t used s trs evs usedF sF base hbase h
    simp only [generate_trials_go] at h
    split at h
    · exact absurd h (by simp)
    · rename_i tr evs0 used1 s1 hmk
      split at h
      · exact absurd h (by simp)
      · rename_i trs1 evs1 used2 s2 hgo
        simp only [Option.some.injEq, Prod.mk.injEq] at h
        obtain ⟨_, hevs, _, _⟩ := h
        subst hevs
        obtain ⟨set_name, st1, methods_dict, mL, mR, st2, cL, vL, u1, st3, cR, vR, st4,
          _, _, _, _, _, hpickL, _, hpickR, hevs0, _⟩ := make_trial_inv hmk
        subst hevs0
        refine ⟨?_, ?_, ?_⟩
        · intro _ hp c hc
          exact (hbase c).mp (pick_video_repeat_exhausted hpickL ((hbase vL).mpr hp) c hc)
        · intro _ hp c hc
          have hu1 : ∀ x, x ∈ u1 ↔ x ∈ vL :: base := by
            intro x
            rw [pick_video_false_used hpickL x]
            simp only [List.mem_cons]
            exact or_congr Iff.rfl (hbase x)
          exact (hu1 c).mp (pick_video_repeat_exhausted hpickR ((hu1 vR).mpr hp) c hc)
        · refine ih ?_ hgo
          intro x
          rw [pick_video_false_used hpickR x]
          simp only [List.mem_cons]
          refine or_congr Iff.rfl ?_
          rw [pick_video_false_used hpickL x]
          simp only [List.mem_cons]
          exact or_congr Iff.rfl (hbase x)

/-- A counterbalanced loop-body run relates to the uncounterbalanced run on
the same inputs: the same picks and registry result, one extra coin draw
taken from the generator state reached after both clip picks, and the trial
equal to the unswapped trial or its side-swap according to that coin. -/
theorem make_trial_counterbalance {manifest : Catalog} {set_names : List String}
    {ar : Bool} {t : Nat} {used : List String} {s : RState}
    {tr : Trial} {evs : List PickEvent} {used2 : List String} {s5 : RState}
    (h : make_trial manifest set_names ar true t used s = some (tr, evs, used2, s5)) :
    ∃ tr0 s4, make_trial manifest set_names ar false t used s = some (tr0, evs, used2, s4) ∧
      s5 = (s4.coin).2 ∧
      tr = (if (s4.coin).1 then swapSides tr0 else tr0) ∧
      tr0.left.label = "A" ∧ tr0.right.label = "B" := by
  obtain ⟨set_name, s1, md, mL, mR, s2, cL, vL, u1, s3, cR, vR, s4,
    h1, h2, hlen, h3, h4, h5, h6, h7, hevs, htr⟩ := make_trial_inv h
  subst hevs
  refine ⟨{ trial_index := t, set := set_name,
            left := { label := "A", method := mL, video := vL },
            right := { label := "B", method := mR, video := vR } }, s4, ?_, ?_, ?_, rfl, rfl⟩
  · simp only [make_trial, h1, h2]
    rw [if_neg (by omega)]
    simp only [h3, h4, h5, h6, h7, counterbalance_step]
    rfl
  · have hsnd := congrArg Prod.snd htr
    simpa [counterbalance_step] using hsnd
  · have hfst := congrArg Prod.fst htr
    simpa [counterbalance_step] using hfst

/-- The value of a hex digit is below 16. -/
theorem hexVal_le {c : Char} {d : Nat} (h : hexVal c = some d) : d ≤ 15 := by
  unfold hexVal at h
  split at h
  · rename_i hc
    simp only [Option.some.injEq] at h
    omega
  · split at h
    · rename_i hc
      simp only [Option.some.injEq] at h
      omega
    · split at h
      · rename_i hc
        simp only [Option.some.injEq] at h
        omega
      · exact absurd h (by simp)

/-- The Horner accumulation of hex digits is bounded by the digit count. -/
theorem hexAcc_lt {l : List Char} :
    ∀ {acc v : Nat}, hexAcc acc l = some v → v < 16 ^ l.length * (acc + 1) := by
  induction l with
  | nil =>
    intro acc v h
    simp only [hexAcc, Option.some.injEq] at h
    subst h
    simp
  | cons c cs ih =>
    intro acc v h
    simp only [hexAcc] at h
    cases hd : hexVal c with
    | none => rw [hd] at h; exact absurd h (by simp)
    | some d =>
      rw [hd] at h
      have hb := ih h
      have hd15 := hexVal_le hd
      have hstep : 16 ^ cs.length * (16 * acc + d + 1) ≤ 16 ^ cs.length * (16 * (acc + 1)) :=
        Nat.mul_le_mul_left _ (by omega)
      calc v < 16 ^ cs.length * (16 * acc + d + 1) := hb
        _ ≤ 16 ^ cs.length * (16 * (acc + 1)) := hstep
        _ = 16 ^ (c :: cs).length * (acc + 1) := by
              simp only [List.length_cons, pow_succ]
              ring

/-- The Horner accumulation succeeds on a list of hex digits. -/
theorem hexAcc_total {l : List Char} (h : ∀ c ∈ l, (hexVal c).isSome) :
    ∀ acc, ∃ v, hexAcc acc l = some v := by
  induction l with
  | nil => exact fun acc => ⟨acc, rfl⟩
  | cons c cs ih =>
    intro acc
    have hc := h c (List.mem_cons_self _ _)
    obtain ⟨d, hd⟩ := Option.isSome_iff_exists.mp hc
    obtain ⟨v, hv⟩ := ih (fun x hx => h x (List.mem_cons_of_mem _ hx)) (16 * acc + d)
    exact ⟨v, by simp only [hexAcc, hd]; exact hv⟩

/-- A missing or out-of-range metric anywhere in the key list makes the
validation loop abort with an error. -/
theorem parse_scores_error {form : String → Option Int} :
    ∀ {keys : List String},
      (∃ key ∈ keys, form (key ++ "_A") = none ∨ form (key ++ "_B") = none ∨
        ∃ v, (form (key ++ "_A") = some v ∨ form (key ++ "_B") = some v) ∧ (v < 0 ∨ 5 < v)) →
      ∃ msg, parse_scores form keys = Except.error msg := by
  intro keys
  induction keys with
  | nil =>
    rintro ⟨k, hk, _⟩
    simp at hk
  | cons key rest ih =>
    rintro ⟨k, hk, hbad⟩
    rw [List.mem_cons] at hk
    cases hA : form (key ++ "_A") with
    | none => exact ⟨"Missing score for " ++ key, by simp [parse_scores, hA]⟩
    | some vA =>
      cases hB : form (key ++ "_B") with
      | none => exact ⟨"Missing score for " ++ key, by simp [parse_scores, hA, hB]⟩
      | some vB =>
        by_cases hr : 0 ≤ vA ∧ vA ≤ 5 ∧ 0 ≤ vB ∧ vB ≤ 5
        · have hk2 : k ∈ rest := by
            cases hk with
            | inr hm => exact hm
            | inl he =>
              subst he
              exfalso
              rcases hbad with hm | hm | ⟨v, hv, hout⟩
              · rw [hA] at hm
                exact absurd hm (by simp)
              · rw [hB] at hm
                exact absurd hm (by simp)
              · rcases hv with hv | hv
                · rw [hA] at hv
                  have hveq := Option.some.inj hv
                  omega
                · rw [hB] at hv
                  have hveq := Option.some.inj hv
                  omega
          obtain ⟨msg, hmsg⟩ := ih ⟨k, hk2, hbad⟩
          refine ⟨msg, ?_⟩
          simp only [parse_scores, hA, hB]
          rw [if_pos hr, hmsg]
        · refine ⟨"Scores must be between 0 and 5", ?_⟩
          simp only [parse_scores, hA, hB]
          rw [if_neg hr]

/-- Every trial of the generation loop carries the fixed side labels. -/
theorem generate_trials_go_labels {manifest : Catalog} {set_names : List String} {ar cb : Bool} :
    ∀ {k t : Nat} {used : List String} {s : RState} {trs : List Trial} {evs : List PickEvent}
      {usedF : List String} {sF : RState},
      generate_trials_go manifest set_names ar cb k t used s = some (trs, evs, usedF, sF) →
      ∀ tr ∈ trs, tr.left.label = "A" ∧ tr.right.label = "B" := by
  intro k
  induction k with
  | zero =>
    intro t used s trs evs usedF sF h
    simp only [generate_trials_go, Option.some.injEq, Prod.mk.injEq] at h
    obtain ⟨rfl, _, _, _⟩ := h
    simp
  | succ k ih =>
    intro t used s trs evs usedF sF h
    simp only [generate_trials_go] at h
    split at h
    · exact absurd h (by simp)
    · rename_i tr evs0 used1 s1 hmk
      split at h
      · exact absurd h (by simp)
      · rename_i trs1 evs1 used2 s2 hgo
        simp only [Option.some.injEq, Prod.mk.injEq] at h
        obtain ⟨rfl, _, rfl, rfl⟩ := h
        intro x hx
        cases hx with
        | head => exact (make_trial_shape hmk).2
        | tail _ hx => exact ih hgo x hx

/-- C1: `generate_trials` is deterministic.  It is embedded as a pure
function of (catalog, seed stream, count, flags), so two calls with
identical arguments are identical; moreover the result depends on the seed
stream only through its values: any two pointwise-equal streams (in
particular, the stream determined by one seed, sampled on two runs) produce
identical trial sequences, element for element, including ordering. -/
theorem c1_generate_trials_deterministic (manifest : Catalog) (n_trials : Nat)
    (f g : Nat → Nat) (ar cb : Bool) (h : ∀ i, f i = g i) :
    generate_trials manifest n_trials f ar cb = generate_trials manifest n_trials g ar cb := by
  have hfg : f = g := funext h
  rw [hfg]

/-- Witness for C1: two syntactically different, pointwise-equal streams on a
concrete catalog. -/
theorem c1_witness :
    generate_trials exampleCatalog 2 constStream false true
      = generate_trials exampleCatalog 2 constStream' false true :=
  c1_generate_trials_deterministic exampleCatalog 2 constStream constStream' false true
    (fun i => (Nat.mul_zero i).symm)

/-- C9: a successful generation returns exactly `n_trials` trials and the
trial at position t carries trial_index t, for every t. -/
theorem c9_length_and_indices {manifest : Catalog} {n_trials : Nat} {stream : Nat → Nat}
    {ar cb : Bool} {trs : List Trial}
    (h : generate_trials manifest n_trials stream ar cb = some trs) :
    trs.length = n_trials ∧ ∀ i (hi : i < trs.length), trs[i].trial_index = i := by
  unfold generate_trials at h
  obtain ⟨out, hfull, hmap⟩ := Option.map_eq_some'.mp h
  obtain ⟨trs1, evs, usedF, sF⟩ := out
  simp only at hmap
  subst hmap
  simp only [generate_trials_full] at hfull
  split at hfull
  · exact absurd hfull (by simp)
  · obtain ⟨hlen, hidx⟩ := generate_trials_go_len hfull
    exact ⟨hlen, fun i hi => by simpa using hidx i hi⟩

/-- Witness for C9 on a concrete catalog, seed stream and count. -/
theorem c9_witness :
    ∃ trs, generate_trials exampleCatalog 3 constStream false true = some trs ∧
      trs.length = 3 ∧ ∀ i (hi : i < trs.length), trs[i].trial_index = i := by
  obtain ⟨trs, htrs⟩ : ∃ trs, generate_trials exampleCatalog 3 constStream false true = some trs :=
    ⟨_, rfl⟩
  exact ⟨trs, htrs, c9_length_and_indices htrs⟩

/-- C10: on a non-empty candidate list `pick_video` never fails and returns a
candidate, in both repeat modes, and with dedup enabled the returned clip is
always registered in the returned registry — including the all-used fallback
draw. -/
theorem c10_pick_video_safe (rng : RState) (used : List String) (allow_repeats : Bool)
    {cands : List String} (h : cands ≠ []) :
    ∃ v u1 s1, pick_video rng cands used allow_repeats = some (v, u1, s1) ∧ v ∈ cands ∧
      (allow_repeats = false → v ∈ u1) := by
  obtain ⟨v, u1, s1, hp⟩ := pick_video_total rng used allow_repeats h
  refine ⟨v, u1, s1, hp, pick_video_mem hp, ?_⟩
  intro har
  subst har
  rw [(pick_video_false_inv hp).2]
  exact mem_addUsed.mpr (Or.inl rfl)

/-- Witness for C10, exercising the all-used fallback: both candidates are
already in the registry. -/
theorem c10_witness :
    ∃ v u1 s1,
      pick_video ⟨constStream, 0⟩ ["c1", "c2"] ["c1", "c2"] false = some (v, u1, s1) ∧
      v ∈ ["c1", "c2"] ∧ (false = false → v ∈ u1) :=
  c10_pick_video_safe ⟨constStream, 0⟩ ["c1", "c2"] false (by simp)

/-- C2: for a valid catalog, every trial of a successful generation
satisfies `TrialOK`: its set is one of the catalog's set names, its two
methods are distinct and both belong to that set, and each side's clip
belongs to its method's list. -/
theorem c2_trial_validity {manifest : Catalog} {n_trials : Nat} {stream : Nat → Nat}
    {ar cb : Bool} {trs : List Trial}
    (hok : CatalogOK manifest)
    (h : generate_trials manifest n_trials stream ar cb = some trs) :
    ∀ tr ∈ trs, TrialOK manifest tr := by
  unfold generate_trials at h
  obtain ⟨out, hfull, hmap⟩ := Option.map_eq_some'.mp h
  obtain ⟨trs1, evs, usedF, sF⟩ := out
  simp only at hmap
  subst hmap
  simp only [generate_trials_full] at hfull
  split at hfull
  · exact absurd hfull (by simp)
  · exact generate_trials_go_ok (fun p hp => (hok.2.2 p hp).2.1) hfull

/-- Witness for C2 on a concrete valid catalog and seed stream. -/
theorem c2_witness :
    ∃ trs, generate_trials exampleCatalog 2 constStream false true = some trs ∧
      ∀ tr ∈ trs, TrialOK exampleCatalog tr := by
  obtain ⟨trs, htrs⟩ : ∃ trs, generate_trials exampleCatalog 2 constStream false true = some trs :=
    ⟨_, rfl⟩
  exact ⟨trs, htrs, c2_trial_validity (by unfold CatalogOK; decide) htrs⟩

/-- C3: with repeats disallowed, the pick events of one whole generation run
(the shared used-clips registry starts empty and is threaded through every
pick of the sequence) obey the dedup discipline: a pick whose candidate pool
has at least `n_trials` clips returns an already-picked clip only once every
clip of that pool has been picked earlier in the same invocation. -/
theorem c3_dedup_no_premature_repeat {manifest : Catalog} {n_trials : Nat}
    {stream : Nat → Nat} {cb : Bool}
    {trs : List Trial} {evs : List PickEvent} {usedF : List String} {sF : RState}
    (h : generate_trials_full manifest n_trials stream false cb = some (trs, evs, usedF, sF)) :
    NoPrematureRepeat n_trials [] evs := by
  simp only [generate_trials_full] at h
  split at h
  · exact absurd h (by simp)
  · exact generate_trials_go_npr n_trials (fun x => by simp) h

/-- Witness for C3 on a catalog whose two methods share one clip, so the
second pick of the run is a genuine registered repeat. -/
theorem c3_witness :
    ∃ trs evs usedF sF,
      generate_trials_full sharedClipCatalog 1 constStream false true
        = some (trs, evs, usedF, sF) ∧
      NoPrematureRepeat 1 [] evs := by
  obtain ⟨trs, evs, usedF, sF, hfull⟩ :
      ∃ trs evs usedF sF, generate_trials_full sharedClipCatalog 1 constStream false true
        = some (trs, evs, usedF, sF) :=
    ⟨_, _, _, _, rfl⟩
  exact ⟨trs, evs, usedF, sF, hfull, c3_dedup_no_premature_repeat hfull⟩

/-- C7: with counterbalancing enabled, each trial is built from the
uncounterbalanced picks by drawing one coin from the same seeded stream at
the state reached after both clip picks; on heads the two (method, clip)
pairs swap sides via `swapSides`, which keeps each side's label in place,
so the left slot is always labelled "A" and the right slot "B" — as is every
trial of any counterbalanced generation run. -/
theorem c7_counterbalance_swap :
    (∀ (manifest : Catalog) (set_names : List String) (ar : Bool) (t : Nat)
        (used : List String) (s : RState) (tr : Trial) (evs : List PickEvent)
        (used2 : List String) (s5 : RState),
      make_trial manifest set_names ar true t used s = some (tr, evs, used2, s5) →
      ∃ tr0 s4, make_trial manifest set_names ar false t used s = some (tr0, evs, used2, s4) ∧
        s5 = (s4.coin).2 ∧
        tr = (if (s4.coin).1 then swapSides tr0 else tr0) ∧
        (swapSides tr0).left.label = tr0.left.label ∧
        (swapSides tr0).right.label = tr0.right.label ∧
        tr.left.label = "A" ∧ tr.right.label = "B") ∧
    (∀ (manifest : Catalog) (n_trials : Nat) (stream : Nat → Nat) (ar : Bool)
        (trs : List Trial),
      generate_trials manifest n_trials stream ar true = some trs →
      ∀ tr ∈ trs, tr.left.label = "A" ∧ tr.right.label = "B") := by
  constructor
  · intro manifest set_names ar t used s tr evs used2 s5 h
    obtain ⟨tr0, s4, hfalse, hs5, htr, hl0, hr0⟩ := make_trial_counterbalance h
    refine ⟨tr0, s4, hfalse, hs5, htr, rfl, rfl, ?_, ?_⟩
    · exact (make_trial_shape h).2.1
    · exact (make_trial_shape h).2.2
  · intro manifest n_trials stream ar trs h
    unfold generate_trials at h
    obtain ⟨out, hfull, hmap⟩ := Option.map_eq_some'.mp h
    obtain ⟨trs1, evs, usedF, sF⟩ := out
    simp only at hmap
    subst hmap
    simp only [generate_trials_full] at hfull
    split at hfull
    · exact absurd hfull (by simp)
    · exact generate_trials_go_labels hfull

/-- Witness for C7 on a concrete counterbalanced loop-body run. -/
theorem c7_witness :
    ∃ tr evs used2 s5,
      make_trial exampleCatalog ["S1"] false true 0 [] ⟨constStream, 0⟩
        = some (tr, evs, used2, s5) ∧
      ∃ tr0 s4,
        make_trial exampleCatalog ["S1"] false false 0 [] ⟨constStream, 0⟩
          = some (tr0, evs, used2, s4) ∧
        s5 = (s4.coin).2 ∧
        tr = (if (s4.coin).1 then swapSides tr0 else tr0) ∧
        (swapSides tr0).left.label = tr0.left.label ∧
        (swapSides tr0).right.label = tr0.right.label ∧
        tr.left.label = "A" ∧ tr.right.label = "B" := by
  obtain ⟨tr, evs, used2, s5, hmk⟩ :
      ∃ tr evs used2 s5, make_trial exampleCatalog ["S1"] false true 0 [] ⟨constStream, 0⟩
        = some (tr, evs, used2, s5) :=
    ⟨_, _, _, _, rfl⟩
  exact ⟨tr, evs, used2, s5, hmk,
    c7_counterbalance_swap.1 exampleCatalog ["S1"] false 0 [] ⟨constStream, 0⟩
      tr evs used2 s5 hmk⟩

/-- C8: on the catalog S1 = (m1 ↦ c1,c2; m2 ↦ c3), any seed stream and
count 1, generation always succeeds with exactly one trial: its set is "S1",
its two methods are m1 and m2 in a seed-determined side order, the m2 side
shows clip c3, and the m1 side shows c1 or c2. -/
theorem c8_example_catalog (stream : Nat → Nat) (ar cb : Bool) :
    ∃ tr, generate_trials exampleCatalog 1 stream ar cb = some [tr] ∧
      tr.set = "S1" ∧
      ((tr.left.method = "m1" ∧ tr.right.method = "m2" ∧ tr.right.video = "c3" ∧
        (tr.left.video = "c1" ∨ tr.left.video = "c2")) ∨
       (tr.left.method = "m2" ∧ tr.right.method = "m1" ∧ tr.left.video = "c3" ∧
        (tr.right.video = "c1" ∨ tr.right.video = "c2"))) := by
  have hset : ∀ nm ∈ exampleCatalog.map Prod.fst,
      ∃ md, List.lookup nm exampleCatalog = some md ∧ 2 ≤ md.length ∧ ∀ q ∈ md, q.2 ≠ [] := by
    intro nm hnm
    have hnm1 : nm = "S1" := by simpa [exampleCatalog] using hnm
    subst hnm1
    exact ⟨[("m1", ["c1", "c2"]), ("m2", ["c3"])], by decide, by decide, by decide⟩
  obtain ⟨out, hgo⟩ := @generate_trials_go_total exampleCatalog (exampleCatalog.map Prod.fst)
    ar cb (by decide) hset 1 0 [] ⟨stream, 0⟩
  obtain ⟨trs, evs, usedF, sF⟩ := out
  have hgen : generate_trials exampleCatalog 1 stream ar cb = some trs := by
    unfold generate_trials
    simp only [generate_trials_full]
    rw [if_neg (by decide), hgo]
    rfl
  have hlen := (generate_trials_go_len hgo).1
  obtain ⟨tr, rfl⟩ := List.length_eq_one.mp hlen
  have hok : TrialOK exampleCatalog tr :=
    generate_trials_go_ok (by decide) hgo tr (by simp)
  obtain ⟨hlab1, hlab2, hsetmem, md, hmdlk, hne, hLm, hRm,
    ⟨cl, hcll, hclv⟩, ⟨cr, hcrl, hcrv⟩⟩ := hok
  have hset1 : tr.set = "S1" := by simpa [exampleCatalog] using hsetmem
  have hmd : md = [("m1", ["c1", "c2"]), ("m2", ["c3"])] := by
    rw [hset1] at hmdlk
    have hconc : List.lookup "S1" exampleCatalog
        = some [("m1", ["c1", "c2"]), ("m2", ["c3"])] := by decide
    exact Option.some.inj (hmdlk.symm.trans hconc)
  subst hmd
  have hLm2 : tr.left.method = "m1" ∨ tr.left.method = "m2" := by simpa using hLm
  have hRm2 : tr.right.method = "m1" ∨ tr.right.method = "m2" := by simpa using hRm
  refine ⟨tr, hgen, hset1, ?_⟩
  rcases hLm2 with hL | hL
  · have hR : tr.right.method = "m2" := by
      rcases hRm2 with hR | hR
      · exact absurd (hL.trans hR.symm) hne
      · exact hR
    left
    refine ⟨hL, hR, ?_, ?_⟩
    · rw [hR] at hcrl
      have hconc : List.lookup "m2" [("m1", ["c1", "c2"]), ("m2", ["c3"])]
          = some ["c3"] := by decide
      have hcr3 : cr = ["c3"] := Option.some.inj (hcrl.symm.trans hconc)
      rw [hcr3] at hcrv
      simpa using hcrv
    · rw [hL] at hcll
      have hconc : List.lookup "m1" [("m1", ["c1", "c2"]), ("m2", ["c3"])]
          = some ["c1", "c2"] := by decide
      have hcl2 : cl = ["c1", "c2"] := Option.some.inj (hcll.symm.trans hconc)
      rw [hcl2] at hclv
      simpa using hclv
  · have hR : tr.right.method = "m1" := by
      rcases hRm2 with hR | hR
      · exact hR
      · exact absurd (hL.trans hR.symm) hne
    right
    refine ⟨hL, hR, ?_, ?_⟩
    · rw [hL] at hcll
      have hconc : List.lookup "m2" [("m1", ["c1", "c2"]), ("m2", ["c3"])]
          = some ["c3"] := by decide
      have hcl3 : cl = ["c3"] := Option.some.inj (hcll.symm.trans hconc)
      rw [hcl3] at hclv
      simpa using hclv
    · rw [hR] at hcrl
      have hconc : List.lookup "m1" [("m1", ["c1", "c2"]), ("m2", ["c3"])]
          = some ["c1", "c2"] := by decide
      have hcr2 : cr = ["c1", "c2"] := Option.some.inj (hcrl.symm.trans hconc)
      rw [hcr2] at hcrv
      simpa using hcrv

/-- C4: submitting twice for the same (participant, trial index) pair
mutates the Rating store at most once.  Over the submission core: the second
call never changes the stored data; whenever the first call was accepted the
second reports the duplicate outcome (the silent redirect of the route, with
the caught `IntegrityError` rolled back) instead of raising; and the
storage-boundary insert itself refuses any row whose (participant_id,
trial_index) pair is already stored, independently of the pre-check. -/
theorem c4_submit_idempotent (store : List Rating) (participant_id : String) (idx : Nat)
    (t : Trial) (now1 now2 : String) (form : String → Option Int)
    {o1 o2 : SubmitOutcome} {store1 store2 : List Rating}
    (h1 : submit_core store participant_id idx t now1 form = (o1, store1))
    (h2 : submit_core store1 participant_id idx t now2 form = (o2, store2)) :
    store2 = store1 ∧
    (o1 = SubmitOutcome.accepted → o2 = SubmitOutcome.rejectedDuplicate) ∧
    (store1 = store ∨ ∃ row, store1 = store ++ [row] ∧
      row.participant_id = participant_id ∧ row.trial_index = idx) ∧
    (∀ (st : List Rating) (row : Rating),
      st.any (ratingMatches row.participant_id row.trial_index) = true →
      insert_rating st row = none) := by
  have hins : ∀ (st : List Rating) (row : Rating),
      st.any (ratingMatches row.participant_id row.trial_index) = true →
      insert_rating st row = none := by
    intro st row hany
    simp [insert_rating, hany]
  cases hp : parse_scores form METRICS with
  | error msg =>
    simp only [submit_core, hp] at h1 h2
    obtain ⟨rfl, rfl⟩ := Prod.mk.injEq _ _ _ _ ▸ h1
    obtain ⟨rfl, rfl⟩ := Prod.mk.injEq _ _ _ _ ▸ h2
    refine ⟨rfl, ?_, Or.inl rfl, hins⟩
    intro hacc
    exact absurd hacc.symm (by simp)
  | ok scores =>
    obtain ⟨sA, sB⟩ := scores
    simp only [submit_core, hp] at h1 h2
    cases hdup : store.any (ratingMatches participant_id idx) with
    | true =>
      rw [if_pos hdup] at h1
      obtain ⟨rfl, rfl⟩ := Prod.mk.injEq _ _ _ _ ▸ h1
      rw [if_pos hdup] at h2
      obtain ⟨rfl, rfl⟩ := Prod.mk.injEq _ _ _ _ ▸ h2
      refine ⟨rfl, ?_, Or.inl rfl, hins⟩
      intro hacc
      exact absurd hacc.symm (by simp)
    | false =>
      rw [if_neg (by simp [hdup])] at h1
      simp only [insert_rating] at h1
      rw [if_neg (by simp [mk_rating, hdup])] at h1
      obtain ⟨rfl, rfl⟩ := Prod.mk.injEq _ _ _ _ ▸ h1
      have hany2 :
          (store ++ [mk_rating participant_id idx t now1 sA sB]).any
            (ratingMatches participant_id idx) = true := by
        simp [mk_rating, ratingMatches]
      rw [if_pos hany2] at h2
      obtain ⟨rfl, rfl⟩ := Prod.mk.injEq _ _ _ _ ▸ h2
      exact ⟨rfl, fun _ => rfl, Or.inr ⟨_, rfl, rfl, rfl⟩, hins⟩

/-- Witness for C4: an accept followed by a duplicate on a concrete store. -/
theorem c4_witness :
    ∃ o1 store1 o2 store2,
      submit_core [] "p1" 0 exampleTrial "t1" formAll3 = (o1, store1) ∧
      submit_core store1 "p1" 0 exampleTrial "t2" formAll3 = (o2, store2) ∧
      store2 = store1 ∧
      (o1 = SubmitOutcome.accepted → o2 = SubmitOutcome.rejectedDuplicate) ∧
      (store1 = [] ∨ ∃ row, store1 = [] ++ [row] ∧
        row.participant_id = "p1" ∧ row.trial_index = 0) ∧
      (∀ (st : List Rating) (row : Rating),
        st.any (ratingMatches row.participant_id row.trial_index) = true →
        insert_rating st row = none) := by
  obtain ⟨o1, store1, h1⟩ :
      ∃ o1 store1, submit_core [] "p1" 0 exampleTrial "t1" formAll3 = (o1, store1) :=
    ⟨_, _, rfl⟩
  obtain ⟨o2, store2, h2⟩ :
      ∃ o2 store2, submit_core store1 "p1" 0 exampleTrial "t2" formAll3 = (o2, store2) :=
    ⟨_, _, rfl⟩
  obtain ⟨ha, hb, hc, hd⟩ :=
    c4_submit_idempotent [] "p1" 0 exampleTrial "t1" "t2" formAll3 h1 h2
  exact ⟨o1, store1, o2, store2, h1, h2, ha, hb, hc, hd⟩

/-- C5: a submission whose form misses a configured metric on either side or
carries an integer value outside the inclusive bound [0, 5] fails with the
400 validation error and leaves the Rating store unchanged — no row is
written. -/
theorem c5_validation_rejects (store : List Rating) (participant_id : String) (idx : Nat)
    (t : Trial) (now : String) (form : String → Option Int)
    (hbad : ∃ key ∈ METRICS, form (key ++ "_A") = none ∨ form (key ++ "_B") = none ∨
      ∃ v, (form (key ++ "_A") = some v ∨ form (key ++ "_B") = some v) ∧ (v < 0 ∨ 5 < v)) :
    ∃ msg, submit_core store participant_id idx t now form
      = (SubmitOutcome.badRequest msg, store) := by
  obtain ⟨msg, hmsg⟩ := parse_scores_error hbad
  exact ⟨msg, by simp only [submit_core, hmsg]⟩

/-- Witness for C5: the metric value 6 against the bound [0, 5] on an empty
store. -/
theorem c5_witness :
    ∃ msg, submit_core [] "p1" 0 exampleTrial "t1" formOutOfRange
      = (SubmitOutcome.badRequest msg, []) :=
  c5_validation_rejects [] "p1" 0 exampleTrial "t1" formOutOfRange
    ⟨"metric_a", by decide, Or.inr (Or.inr ⟨6, Or.inl (by decide), by decide⟩)⟩

/-- C6 (amended): `participant_seed` parses the first (up to) 8 characters
of the identifier in base 16.  For an identifier whose first 8 characters
are hex digits it succeeds with a value in [0, 2^32).  An identifier shorter
than 8 characters does not fail when its characters are hex digits: the whole
identifier is parsed instead.  The failure (Python's `ValueError`) occurs
exactly when the truncated prefix is empty or holds a non-hex character, as
on the empty string or "zzzzzzzz". -/
theorem c6_participant_seed_amended :
    (∀ pid : String, 8 ≤ pid.data.length →
      (∀ c ∈ pid.data.take 8, (hexVal c).isSome) →
      ∃ v, participant_seed pid = some v ∧ v < 2 ^ 32) ∧
    (∀ pid : String, pid.data ≠ [] →
      (∀ c ∈ pid.data, (hexVal c).isSome) →
      ∃ v, participant_seed pid = some v) ∧
    participant_seed "" = none ∧
    participant_seed "zzzzzzzz" = none := by
  refine ⟨?_, ?_, by decide, by decide⟩
  · intro pid hlen hhex
    have hlen8 : (pid.data.take 8).length = 8 := by
      simp only [List.length_take]
      omega
    have hne : pid.data.take 8 ≠ [] := by
      intro hcontra
      rw [hcontra] at hlen8
      simp at hlen8
    obtain ⟨v, hv⟩ := hexAcc_total hhex 0
    refine ⟨v, ?_, ?_⟩
    · unfold participant_seed
      cases htake : pid.data.take 8 with
      | nil => exact absurd htake hne
      | cons c cs =>
        rw [htake] at hv
        unfold int_base16
        exact hv
    · have hb := hexAcc_lt hv
      rw [hlen8] at hb
      have hpow : (16 : Nat) ^ 8 * (0 + 1) = 2 ^ 32 := by norm_num
      omega
  · intro pid hne hhex
    have hne8 : pid.data.take 8 ≠ [] := by
      cases hd : pid.data with
      | nil => exact absurd hd hne
      | cons c cs => simp [hd]
    obtain ⟨v, hv⟩ :=
      hexAcc_total (fun c hc => hhex c (List.take_subset 8 pid.data hc)) 0
    refine ⟨v, ?_⟩
    unfold participant_seed
    cases htake : pid.data.take 8 with
    | nil => exact absurd htake hne8
    | cons c cs =>
      rw [htake] at hv
      unfold int_base16
      exact hv

/-- Counterexample for C6 as stated: the identifier "ab" is shorter than 8
characters, yet `participant_seed` does not fail with any error — it returns
171 (0xab), since `int(participant_id[:8], 16)` parses whatever prefix
exists. -/
theorem c6_counterexample :
    participant_seed "ab" = some 171 ∧ participant_seed "ab" ≠ none := by
  exact ⟨by decide, by decide⟩

/-- Witness for the amended C6 on concrete identifiers. -/
theorem c6_witness :
    (∃ v, participant_seed "deadbeef1234" = some v ∧ v < 2 ^ 32) ∧
    (∃ v, participant_seed "ab" = some v) :=
  ⟨c6_participant_seed_amended.1 "deadbeef1234" (by decide) (by decide),
   c6_participant_seed_amended.2.1 "ab" (by decide) (by decide)⟩
